import Mathlib

/-!
Verification of the orger Org-Mode parser against its specification.

The development shallow-embeds the parsing pipeline of
`packages/core/src/parser/parser.ts` (the inline PEG grammar, the
`processListItems` nesting pass, the `preProcessStrikethrough` pre-pass, the
inline markup segmentation passes `processBold` … `processVerbatim`, and the
`parse` entry point), the AST node model of `packages/core/src/ast/node.ts`,
the round-trip renderer of `packages/core/src/renderer/org.ts`, and the
table rules of the stand-alone grammar file `src/parser/grammar.pegjs` — a
grammar pegjs cannot compile (its `ListMarker` rule ends in an unterminated
string literal), so only its rule text is analysed.

PEG semantics are embedded faithfully: ordered choice commits to the first
matching alternative, repetition (`*`, `+`) is greedy and never backtracks,
and lookahead (`!e`) runs the full sub-rule without consuming input.
Recursive rules take an explicit fuel argument; every loop body consumes at
least one character, so fuel `length + 1` always suffices (proved where a
theorem needs it).
-/

set_option maxRecDepth 100000
set_option maxHeartbeats 4000000

namespace Orger

/-! ### The node model (`packages/core/src/ast/node.ts`)

A `Node` mirrors the dynamic JS node object: a `type` tag plus the fields the
parser actually stores (`value`, `level`, `title`, `todoKeyword`, `ordered`,
`listType`), the ordered `children`, and `plinked`, which records the state of
the mutable `parent` back-reference: `plinked = true` means the node's
`parent` field was set (by `appendChild`) to the node that currently holds it
in `children`; `plinked = false` means the `parent` field is `undefined`.
In the pipeline a node's `parent` is never anything else: `appendChild` is
the only code that sets `parent`, and nodes are never moved to a different
parent afterwards, so a boolean captures the pointer exactly. -/

inductive Node where
  | mk (type : String) (value : String) (level : Nat) (title : String)
       (todoKeyword : Option String) (ordered : Bool) (listType : String)
       (plinked : Bool) (children : List Node)

def Node.type : Node → String
  | .mk t _ _ _ _ _ _ _ _ => t

def Node.value : Node → String
  | .mk _ v _ _ _ _ _ _ _ => v

def Node.level : Node → Nat
  | .mk _ _ l _ _ _ _ _ _ => l

def Node.title : Node → String
  | .mk _ _ _ ti _ _ _ _ _ => ti

def Node.todoKeyword : Node → Option String
  | .mk _ _ _ _ td _ _ _ _ => td

def Node.ordered : Node → Bool
  | .mk _ _ _ _ _ o _ _ _ => o

def Node.listType : Node → String
  | .mk _ _ _ _ _ _ lt _ _ => lt

def Node.plinked : Node → Bool
  | .mk _ _ _ _ _ _ _ pl _ => pl

def Node.children : Node → List Node
  | .mk _ _ _ _ _ _ _ _ cs => cs

/-- `appendChild` sets the child's `parent` back-reference; on the embedding
this marks the child as linked. -/
def Node.withLinked : Node → Bool → Node
  | .mk t v l ti td o lt _ cs, b => .mk t v l ti td o lt b cs

/-- A fresh text node as created by `new Node('text', { value })`:
no parent reference yet. -/
def tx (v : String) : Node := .mk "text" v 0 "" none false "" false []

/-! ### The AST objects returned by the embedded PEG grammar

Before `createNode` turns them into `Node`s, the grammar actions build plain
objects; `Ast` mirrors them (`createDocument`, `createHeading`, `createText`,
`createList`, `createListItem`, and the paragraph object literal). -/

inductive Ast where
  | document (children : List Ast)
  | heading (level : Nat) (title : String) (todoKeyword : Option String)
            (children : List Ast)
  | paragraph (children : List Ast)
  | text (value : String)
  | list (ordered : Bool) (children : List Ast)
  | listItem (ordered : Bool) (children : List Ast)

/-- A raw `list_item` object as produced by the `list_item` grammar rule:
its marker kind, its line content, and the temporary `indentLevel`. -/
structure RawItem where
  ordered : Bool
  content : String
  indent : Nat

/-! ### Character-level scanners shared by the grammar rules -/

/-- `whitespace = [ \t]+` character class. -/
def isWsChar (c : Char) : Bool := c = ' ' || c = '\t'

/-- JavaScript's `\s` class (the ASCII part; inputs in this development are
ASCII). Used by `String.prototype.trim` and by the `[^\s+]` class of the
strikethrough pre-pass regex. -/
def jsSpace (c : Char) : Bool :=
  c = ' ' || c = '\t' || c = '\n' || c = '\r' ||
  c = Char.ofNat 11 || c = Char.ofNat 12

/-- `String.prototype.trim` on a character list. -/
def jsTrim (s : List Char) : List Char :=
  ((s.dropWhile jsSpace).reverse.dropWhile jsSpace).reverse

/-- `newline = "\r\n" / "\n" / "\r"` (ordered PEG choice). -/
def pNewline : List Char → Option (List Char)
  | '\r' :: '\n' :: r => some r
  | '\n' :: r => some r
  | '\r' :: r => some r
  | _ => none

/-- `newline*`: consume as many newline tokens as possible. -/
def pNewlines : List Char → List Char
  | '\r' :: '\n' :: r => pNewlines r
  | '\n' :: r => pNewlines r
  | '\r' :: r => pNewlines r
  | s => s

/-- `whitespace = [ \t]+`: one or more; returns the run length. -/
def pWs1 (s : List Char) : Option (Nat × List Char) :=
  let run := s.takeWhile isWsChar
  if run.isEmpty then none else some (run.length, s.drop run.length)

/-- `asterisk+`: one or more stars; returns the count. -/
def pStars (s : List Char) : Option (Nat × List Char) :=
  let run := s.takeWhile (· = '*')
  if run.isEmpty then none else some (run.length, s.drop run.length)

/-- Literal string match. -/
def pLit (lit : List Char) (s : List Char) : Option (List Char) :=
  if lit.isPrefixOf s then some (s.drop lit.length) else none

/-- `(!newline .)*`: the characters of the current line. -/
def takeLine (s : List Char) : List Char :=
  s.takeWhile (fun c => c != '\n' && c != '\r')

/-! ### `preProcessStrikethrough` (`parser.ts` lines 297–301)

`text.replace(/\+([^\s+][^+\n]*[^\s+])\+/g, '§§STRIKETHROUGH§§$1§§ENDSTRIKETHROUGH§§')`.
The content between the two `+` cannot contain `+`, so the closing delimiter
is necessarily the next `+`; a match requires the enclosed run to be at least
two characters, newline-free, and to start and end with a non-space. -/

def sentinelB : List Char := "§§STRIKETHROUGH§§".toList

def sentinelE : List Char := "§§ENDSTRIKETHROUGH§§".toList

/-- Attempt the regex match with the opening `+` already consumed; `t` is the
text after it. Returns the captured content and the rest after the closing
`+`. -/
def preFind (t : List Char) : Option (List Char × List Char) :=
  let content := t.takeWhile (· != '+')
  match t.drop content.length with
  | '+' :: r =>
    match content, content.reverse with
    | c0 :: _ :: _, cl :: _ =>
      if content.contains '\n' then none
      else if jsSpace c0 then none
      else if jsSpace cl then none
      else some (content, r)
    | _, _ => none
  | _ => none

def preProcessStrikethrough : Nat → List Char → List Char
  | 0, s => s
  | fuel + 1, s =>
    match s with
    | [] => []
    | c :: t =>
      if c = '+' then
        match preFind t with
        | some (content, rest) =>
          sentinelB ++ content ++ sentinelE ++ preProcessStrikethrough fuel rest
        | none => '+' :: preProcessStrikethrough fuel t
      else c :: preProcessStrikethrough fuel t

/-! ### The inline PEG grammar of `parser.ts` (lines 38–238)

Rules: `document`, `heading`, `todo_keyword`, `list`, `list_item`,
`list_marker`, `paragraph`, `empty_line`, `whitespace`, `newline`,
`asterisk`. -/

/-- The keyword literals of `todo_keyword`, in grammar order. -/
def todoKeywordLits : List String :=
  ["TODO", "DONE", "FEEDBACK", "VERIFY", "DELEGATED", "PROJECT", "IDEA"]

/-- `todo_keyword = keyword:(todo / done / … / idea) whitespace`. -/
def pTodoKeyword (s : List Char) : Option (String × List Char) :=
  match todoKeywordLits.find? (fun k => k.toList.isPrefixOf s) with
  | none => none
  | some k =>
    match pWs1 (s.drop k.length) with
    | some (_, r) => some (k, r)
    | none => none

/-- `list_marker = ("-" / "+" / "*") / [0-9]+ "."`. -/
def pMarker : List Char → Option (List Char × List Char)
  | '-' :: r => some (['-'], r)
  | '+' :: r => some (['+'], r)
  | '*' :: r => some (['*'], r)
  | s =>
    let ds := s.takeWhile Char.isDigit
    if ds.isEmpty then none
    else
      match s.drop ds.length with
      | '.' :: r => some (ds ++ ['.'], r)
      | _ => none

/-- `marker.indexOf('.') > 0` (JS `indexOf` is `-1` when absent). -/
def markerOrdered (m : List Char) : Bool :=
  m.contains '.' && m.indexOf '.' != 0

/-- The tail of the `list_item` rule after the optional indent
(`marker:list_marker whitespace content:(!newline .)* newline`), with `ind`
the recorded `indentLevel`. -/
def pListItemAfterIndent (ind : Nat) (s1 : List Char) :
    Option (RawItem × List Char) :=
  match pMarker s1 with
  | none => none
  | some (m, s2) =>
    match pWs1 s2 with
    | none => none
    | some (_, s3) =>
      let content := takeLine s3
      match pNewline (s3.drop content.length) with
      | none => none
      | some s5 =>
        some ({ ordered := markerOrdered m, content := String.mk content,
                indent := ind }, s5)

/-- `list_item = indent:whitespace? marker:list_marker whitespace
content:(!newline .)* newline`. -/
def pListItem (s : List Char) : Option (RawItem × List Char) :=
  match pWs1 s with
  | some (n, r) => pListItemAfterIndent n r
  | none => pListItemAfterIndent 0 s

/-! ### `processListItems` (`parser.ts` lines 88–134)

The stack frames of the JS function: `level`, the pending nested list's type
(decided by the item whose indent opened the frame), and the items collected
so far. In the JS code the nested list object is pushed into
`currentItem.children` at frame-push time and filled by mutation; here the
frame accumulates the items and the completed list is attached to the last
item of the frame below when the frame is popped, which builds the same
tree. -/

structure Frame where
  level : Nat
  ordered : Bool
  acc : List Ast

/-- `currentItem.children.push(child)` on a plain AST object. -/
def addChildAst : Ast → Ast → Ast
  | .document cs, a => .document (cs ++ [a])
  | .heading l t k cs, a => .heading l t k (cs ++ [a])
  | .paragraph cs, a => .paragraph (cs ++ [a])
  | .text v, _ => .text v
  | .list o cs, a => .list o (cs ++ [a])
  | .listItem o cs, a => .listItem o (cs ++ [a])

/-- Push `child` into the children of the last element of `xs`
(the JS `currentItem` is the most recently appended item). -/
def attachToLast : List Ast → Ast → List Ast
  | [], _ => []
  | [x], a => [addChildAst x a]
  | x :: y :: rest, a => x :: attachToLast (y :: rest) a

/-- Pop the top frame: its collected items become a nested list attached to
the last item of the frame below. -/
def popOne : List Frame → List Frame
  | f :: g :: rest =>
    { g with acc := attachToLast g.acc (.list f.ordered f.acc) } :: rest
  | fs => fs

/-- `while (stack.length > 1 && stack[stack.length-1].level > level) pop`. -/
def popWhileF : Nat → Nat → List Frame → List Frame
  | 0, _, fs => fs
  | fuel + 1, d, fs =>
    match fs with
    | f :: _ :: _ => if d < f.level then popWhileF fuel d (popOne fs) else fs
    | _ => fs

/-- Pop every frame down to the root (performed implicitly by the JS code,
where nested lists are already wired in by mutation). -/
def popAllF : Nat → List Frame → List Frame
  | 0, fs => fs
  | fuel + 1, fs =>
    match fs with
    | _ :: _ :: _ => popAllF fuel (popOne fs)
    | _ => fs

/-- Append an item to the items of the current (top) frame. -/
def pushTop : List Frame → Ast → List Frame
  | f :: rest, a => { f with acc := f.acc ++ [a] } :: rest
  | [], _ => []

/-- The `list_item` object handed to `processListItems`. -/
def itemAst (it : RawItem) : Ast := .listItem it.ordered [.text it.content]

/-- One iteration of the `processListItems` loop. The state is the frame
stack (top first, root last), `currentLevel`, and whether any item has been
processed (`currentItem !== null`). -/
def plStep (st : List Frame × Nat × Bool) (it : RawItem) :
    List Frame × Nat × Bool :=
  let (stack, currentLevel, started) := st
  let level := it.indent
  let stack1 :=
    if currentLevel < level then
      if started then ⟨level, it.ordered, []⟩ :: stack else stack
    else if level < currentLevel then popWhileF stack.length level stack
    else stack
  (pushTop stack1 (itemAst it), level, true)

def processListItems (items : List RawItem) : List Ast :=
  let (stack, _, _) := items.foldl plStep ([⟨0, false, []⟩], 0, false)
  match popAllF stack.length stack with
  | f :: _ => f.acc
  | [] => []

/-! ### The recursive document rules

`document = newline* children:(heading / list / paragraph / empty_line)*`;
`heading` recursively parses the same element sequence as its children, so
the element loop takes fuel. Element values are `Option Ast` (`empty_line`
yields `null`, filtered by `children.filter(Boolean)`). -/

/-- `list = raw_items:list_item+ { … processListItems … }`.
The `list_item+` loop; each item consumes at least its marker and newline. -/
def pListItemsF : Nat → List Char → List RawItem × List Char
  | 0, s => ([], s)
  | fuel + 1, s =>
    match pListItem s with
    | none => ([], s)
    | some (it, r) =>
      let (its, r') := pListItemsF fuel r
      (it :: its, r')

def pList (s : List Char) : Option (Ast × List Char) :=
  match pListItemsF (s.length + 1) s with
  | ([], _) => none
  | (first :: rest, r) =>
    some (.list first.ordered (processListItems (first :: rest)), r)

/-- `heading = stars:asterisk+ whitespace todo_keyword:todo_keyword?
title:(!newline .)* newline children:(…)*`, with `k` parsing the children
sequence. A failed optional `todo_keyword` consumes nothing. -/
def pHeading (k : List Char → List (Option Ast) × List Char)
    (s : List Char) : Option (Ast × List Char) :=
  match pStars s with
  | none => none
  | some (n, s1) =>
    match pWs1 s1 with
    | none => none
    | some (_, s2) =>
      let (todo, s3) :=
        match pTodoKeyword s2 with
        | some (kw, r) => (some kw, r)
        | none => (none, s2)
      let title := takeLine s3
      match pNewline (s3.drop title.length) with
      | none => none
      | some s5 =>
        let (cs, s6) := k s5
        some (.heading n (String.mk (jsTrim title)) todo (cs.filterMap id), s6)

/-- The characters matched by `(!heading !list_item !newline .)*` of the
`paragraph` rule; `hp` is the full `heading` rule used by the `!heading`
lookahead. -/
def takeParaChars (hp : List Char → Option (Ast × List Char)) :
    List Char → List Char
  | [] => []
  | c :: t =>
    if (hp (c :: t)).isSome then []
    else if (pListItem (c :: t)).isSome then []
    else if (pNewline (c :: t)).isSome then []
    else c :: takeParaChars hp t

/-- `paragraph = content:(!heading !list_item !newline .)+ newline* / newline+`. -/
def pParagraph (hp : List Char → Option (Ast × List Char))
    (s : List Char) : Option (Ast × List Char) :=
  let cs := takeParaChars hp s
  if cs.isEmpty then
    match pNewline s with
    | none => none
    | some r => some (.paragraph [.text ""], pNewlines r)
  else
    some (.paragraph [.text (String.mk cs)], pNewlines (s.drop cs.length))

/-- One element of the `(heading / list / paragraph / empty_line)*` loop:
the ordered choice, with `hp` the full `heading` rule (used both as first
alternative and by the paragraph lookahead). -/
def pElemStep (hp : List Char → Option (Ast × List Char)) (s : List Char) :
    Option (Option Ast × List Char) :=
  match hp s with
  | some (a, r) => some (some a, r)
  | none =>
    match pList s with
    | some (a, r) => some (some a, r)
    | none =>
      match pParagraph hp s with
      | some (a, r) => some (some a, r)
      | none =>
        match pNewline s with
        | some r => some (none, r)
        | none => none

/-- The `(heading / list / paragraph / empty_line)*` loop shared by
`document` and `heading`. -/
def pElems : Nat → List Char → List (Option Ast) × List Char
  | 0, s => ([], s)
  | fuel + 1, s =>
    match pElemStep (pHeading (pElems fuel)) s with
    | none => ([], s)
    | some (a, r) =>
      let (as, r') := pElems fuel r
      (a :: as, r')

/-- `document = newline* children:(heading / list / paragraph / empty_line)*`. -/
def pDocument (fuel : Nat) (s : List Char) : Ast × List Char :=
  let s1 := pNewlines s
  let (cs, r) := pElems fuel s1
  (.document (cs.filterMap id), r)

/-! ### The inline markup segmentation passes (`parser.ts` lines 383–739)

Each pass scans only `text` nodes; `/X([^X\n]+)X/g` finds the leftmost
position holding a delimiter followed by a non-empty newline-free,
delimiter-free run and a closing delimiter. All matched pieces and the
literal pieces between them become fresh nodes (no parent reference). -/

/-- With the opening delimiter consumed, match `([^X\n]+)X`: the maximal
run (the content cannot contain the delimiter, so no shorter run can be
followed by it) and the closing delimiter. -/
def spanContent (c : Char) (xs : List Char) : Option (List Char × List Char) :=
  let run := xs.takeWhile (fun x => x != c && x != '\n')
  if run.isEmpty then none
  else
    match xs.drop run.length with
    | y :: r => if y = c then some (run, r) else none
    | [] => none

/-- Leftmost match of `/X([^X\n]+)X/`: `(preceding text, content, rest)`. -/
def findSpan (c : Char) : List Char → Option (List Char × List Char × List Char)
  | [] => none
  | x :: xs =>
    if x = c then
      match spanContent c xs with
      | some (content, rest) => some ([], content, rest)
      | none =>
        match findSpan c xs with
        | some (pre, content, rest) => some (x :: pre, content, rest)
        | none => none
    else
      match findSpan c xs with
      | some (pre, content, rest) => some (x :: pre, content, rest)
      | none => none

/-- The strikethrough regex alternation
`/§§STRIKETHROUGH§§([^§]+)§§ENDSTRIKETHROUGH§§|\+([^+\n]+)\+/` tried at one
position. -/
def strikeAt (s : List Char) : Option (List Char × List Char) :=
  let plusAlt : Option (List Char × List Char) :=
    match s with
    | '+' :: xs => spanContent '+' xs
    | _ => none
  if sentinelB.isPrefixOf s then
    let t := s.drop sentinelB.length
    let run := t.takeWhile (· != '§')
    if run.isEmpty then plusAlt
    else if sentinelE.isPrefixOf (t.drop run.length) then
      some (run, t.drop (run.length + sentinelE.length))
    else plusAlt
  else plusAlt

/-- Leftmost match of the strikethrough alternation. -/
def findStrike : List Char → Option (List Char × List Char × List Char)
  | [] => none
  | x :: xs =>
    match strikeAt (x :: xs) with
    | some (content, rest) => some ([], content, rest)
    | none =>
      match findStrike xs with
      | some (pre, content, rest) => some (x :: pre, content, rest)
      | none => none

/-- Split a text value into literal chunks (`inl`) and span contents
(`inr`), repeating the regex from the end of each match; an empty trailing
piece is not emitted (`lastIndex < text.length` guard). -/
def splitChunks (find : List Char → Option (List Char × List Char × List Char)) :
    Nat → List Char → List (List Char ⊕ List Char)
  | 0, s => if s.isEmpty then [] else [.inl s]
  | fuel + 1, s =>
    match find s with
    | none => if s.isEmpty then [] else [.inl s]
    | some (pre, content, rest) =>
      (if pre.isEmpty then [] else [.inl pre]) ++
        .inr content :: splitChunks find fuel rest

/-- One segmentation pass: non-text nodes and empty text nodes pass through;
a non-empty text node is replaced by fresh nodes built from its chunks. -/
def passGeneric
    (find : List Char → Option (List Char × List Char × List Char))
    (mkSpan : List Char → Node) (nodes : List Node) : List Node :=
  (nodes.map fun n =>
    if n.type != "text" then [n]
    else if n.value = "" then [n]
    else
      (splitChunks find (n.value.toList.length + 1) n.value.toList).map
        fun ch =>
          match ch with
          | .inl cs => tx (String.mk cs)
          | .inr content => mkSpan content).flatten

/-- A markup container node with its content text appended via
`appendChild` (hence the inner text node is linked). -/
def markNode (type : String) (content : List Char) : Node :=
  .mk type "" 0 "" none false "" false [(tx (String.mk content)).withLinked true]

def processBold (nodes : List Node) : List Node :=
  passGeneric (findSpan '*') (markNode "bold") nodes

def processItalic (nodes : List Node) : List Node :=
  passGeneric (findSpan '/') (markNode "italic") nodes

def processUnderline (nodes : List Node) : List Node :=
  passGeneric (findSpan '_') (markNode "underline") nodes

def processStrikeThrough (nodes : List Node) : List Node :=
  passGeneric findStrike (markNode "strikethrough") nodes

def processCode (nodes : List Node) : List Node :=
  passGeneric (findSpan '~') (fun content => .mk "code" (String.mk content) 0 "" none false "" false []) nodes

def processVerbatim (nodes : List Node) : List Node :=
  passGeneric (findSpan '=') (fun content => .mk "verbatim" (String.mk content) 0 "" none false "" false []) nodes

/-- `processTextMarkupInString` (`parser.ts` lines 383–398): the six passes
in their fixed order — Bold, Italic, Underline, Strikethrough, Code,
Verbatim — each rescanning only the text nodes produced so far. -/
def processTextMarkupInString (value : String) : List Node :=
  if value = "" then [tx ""]
  else
    processVerbatim (processCode (processStrikeThrough
      (processUnderline (processItalic (processBold [tx value])))))

/-! ### `createNode` (AST → Node, `parser.ts` lines 309–333) and
`processTextMarkup` (lines 340–375)

`createNode` copies the object fields and appends converted children with
`appendChild`, so every converted child carries a correct parent reference.
`processTextMarkup` replaces each non-empty text child by the segmentation
output by splicing into the parent's `children` array — `splice` sets no
parent references, so the spliced nodes keep `parent = undefined`. -/

mutual

def createNode : Ast → Node
  | .document cs => .mk "document" "" 0 "" none false "" false (createChildren cs)
  | .heading lvl title todo cs =>
    .mk "heading" "" lvl title todo false "" false (createChildren cs)
  | .paragraph cs => .mk "paragraph" "" 0 "" none false "" false (createChildren cs)
  | .text v => .mk "text" v 0 "" none false "" false []
  | .list ord cs =>
    .mk "list" "" 0 "" none false (if ord then "ordered" else "unordered") false
      (createChildren cs)
  | .listItem ord cs =>
    .mk "list_item" "" 0 "" none ord "" false (createChildren cs)

def createChildren : List Ast → List Node
  | [] => []
  | a :: rest => (createNode a).withLinked true :: createChildren rest

end

mutual

def processTextMarkup : Node → Node
  | .mk t v lvl ti td o lt pl cs => .mk t v lvl ti td o lt pl (markupChildren cs)

def markupChildren : List Node → List Node
  | [] => []
  | c :: rest =>
    (if c.type = "text" then
      if c.value = "" then [c] else processTextMarkupInString c.value
     else [processTextMarkup c]) ++ markupChildren rest

end

/-! ### `Parser.parse` (`parser.ts` lines 255–287) and `ParseOptions`

The options object (`parser/options.ts`) is stored by the constructor but
never consulted by the grammar: the recognized TODO keywords are the seven
literals hard-wired in the `todo_keyword` rule. pegjs raises a
`SyntaxError` when the start rule does not consume the whole input; `parse`
catches any error and rethrows a single generic
`Error('Failed to parse document: …')`, modelled by `PError.parseFailure`. -/

structure ParseOptions where
  todoKeywords : List String := ["TODO", "DONE"]

inductive PError where
  | parseFailure
deriving DecidableEq

def parse (_opts : ParseOptions) (text : String) : Except PError Node :=
  let src := text.toList
  let pre := preProcessStrikethrough (src.length + 1) src
  match pDocument (pre.length + 1) pre with
  | (Ast.document cs, []) =>
    .ok (processTextMarkup
      (.mk "document" "" 0 "" none false "" false (createChildren cs)))
  | _ => .error .parseFailure

def defaultOptions : ParseOptions := {}

/-! ### `OrgRenderer` (`packages/core/src/renderer/org.ts`)

The switch in `renderNode`, restricted to the node kinds this parser can
produce (the grammar builds no table nodes, and the table branches read
fields — `isHeader` — that such nodes would carry; they are unreachable
from any `parse` output, and unrecognized kinds fall to the `default`
branch returning `''`, which the embedding also uses for them). -/

/-- The fixed parts of a rendered list-item line
(`${indent}${marker} ${content}\n` plus the nested-list block). -/
def itemLine (level : Nat) (o : Bool) (textPart listsPart : String) : String :=
  String.mk (List.replicate (level * 2) ' ') ++ (if o then "1." else "-") ++
    " " ++ textPart ++ "\n" ++ listsPart

mutual

def renderNode (n : Node) : String :=
  match n with
  | .mk t v lvl ti td o _ _ cs =>
    if t = "document" then renderChildren cs
    else if t = "heading" then
      let level := if lvl = 0 then 1 else lvl
      let stars := String.mk (List.replicate level '*')
      let todoPart := match td with
        | some kw => kw ++ " "
        | none => ""
      stars ++ " " ++ todoPart ++ ti ++ "\n" ++ renderChildren cs
    else if t = "paragraph" then
      if cs.isEmpty then "\n" else renderChildren cs ++ "\n\n"
    else if t = "text" then v
    else if t = "list" then
      if cs.isEmpty then "" else renderChildren cs
    else if t = "list_item" then
      -- `renderListItem(node, options, 0)`
      if cs.isEmpty then ""
      else
        let (tp, lp) := itemParts 0 cs
        itemLine 0 o tp lp
    else if t = "bold" then
      if cs.isEmpty then "" else "*" ++ renderChildren cs ++ "*"
    else if t = "italic" then
      if cs.isEmpty then "" else "/" ++ renderChildren cs ++ "/"
    else if t = "underline" then
      if cs.isEmpty then "" else "_" ++ renderChildren cs ++ "_"
    else if t = "strikethrough" then
      if cs.isEmpty then "" else "+" ++ renderChildren cs ++ "+"
    else if t = "code" then "~" ++ v ++ "~"
    else if t = "verbatim" then "=" ++ v ++ "="
    else ""
termination_by structural n

def renderChildren (ns : List Node) : String :=
  match ns with
  | [] => ""
  | c :: rest => renderNode c ++ renderChildren rest
termination_by structural ns

/-- The two accumulations of `renderListItem(node, options, level)`: the
text-typed children rendered in order for the item line, and the
list-typed children rendered item-by-item one level deeper. -/
def itemParts (level : Nat) (ns : List Node) : String × String :=
  match ns with
  | [] => ("", "")
  | c :: rest =>
    let (tp, lp) := itemParts level rest
    let (ctp, clp) := itemPartsNode level c
    (ctp ++ tp, clp ++ lp)
termination_by structural ns

/-- One child's contribution to the two accumulations: a text-typed child is
rendered by `renderNode` (which for `text` nodes returns exactly the node's
`value`) into the line part; a non-empty list-typed child contributes its
items one level deeper. -/
def itemPartsNode (level : Nat) (c : Node) : String × String :=
  match c with
  | .mk t v _ _ _ _ _ _ ccs =>
    ((if t = "text" then v else ""),
     (if t = "list" && !ccs.isEmpty then renderItemsAt (level + 1) ccs
      else ""))
termination_by structural c

/-- `listNode.children.forEach(item => renderListItem(item, options, level))`. -/
def renderItemsAt (level : Nat) (ns : List Node) : String :=
  match ns with
  | [] => ""
  | c :: rest => renderItemNode level c ++ renderItemsAt level rest
termination_by structural ns

/-- `renderListItem(item, options, level)` on one item. -/
def renderItemNode (level : Nat) (c : Node) : String :=
  match c with
  | .mk _ _ _ _ _ o _ _ ccs =>
    if ccs.isEmpty then ""
    else
      let (tp, lp) := itemParts level ccs
      itemLine level o tp lp
termination_by structural c

end

/-- `OrgRenderer.render(document)` (`org.ts` lines 19–21). -/
def render (document : Node) : String := renderNode document

/-! ### The stand-alone grammar file `src/parser/grammar.pegjs`

This grammar file cannot be turned into a parser at all: the `ListMarker`
rule (line 139) ends in the unterminated string literal `" )` — a pegjs
string literal cannot contain a raw newline — so `pegjs.generate` throws
while the grammar is being compiled, before any input could be parsed.
What can still be analysed is rule text that does not involve the broken
literal: namespace `Peg` embeds the table rules as written — `TableCell`,
`TableSeparator`, `TableRow` — to show that the `TableRow` rule is
unsatisfiable even on its own terms (the greedy `TableCell+` consumes
every `|` it reaches, so the rule's mandatory closing `"|"` can never
match). -/

namespace Peg

/-- The AST objects the `ast` factories (`createDocument`,
`createSection`, …) would build; only the shape matters here. -/
inductive PNode where
  | doc (props : List (String × String)) (sections : List PNode)
  | sect (heading : Option PNode) (content : List PNode)
  | heading (level : Nat) (title : String) (tags : List String)
            (todo : Option String) (priority : Option Char)
  | paragraph (text : String)
  | list (ordered : Bool) (items : List PNode)
  | listItem (bullet : String) (checkbox : Option String) (content : String)
  | table (rows : List PNode)
  | tableRow (isHeader : Bool) (cells : List String)
  | codeBlock (value : String) (language : Option String)
              (params : List (String × String))

/-- `Newline = "\n" / "\r\n"`. -/
def pgNewline : List Char → Option (List Char)
  | '\n' :: r => some r
  | '\r' :: '\n' :: r => some r
  | _ => none

/-- `TableCell = content:[^|\n]* "|"`. -/
def pgTableCell (s : List Char) : Option (String × List Char) :=
  let content := s.takeWhile (fun c => c != '|' && c != '\n')
  match s.drop content.length with
  | '|' :: r => some (String.mk (jsTrim content), r)
  | _ => none

/-- `TableCell+`. -/
def pgTableCellsF : Nat → List Char → List String × List Char
  | 0, s => ([], s)
  | fuel + 1, s =>
    match pgTableCell s with
    | none => ([], s)
    | some (c, r) =>
      let (cs, r') := pgTableCellsF fuel r
      (c :: cs, r')

/-- `TableSeparator = "|" ("-"+) ("|" ("-"+))* "|" Newline`. -/
def pgSepSegs : Nat → List Char → List Char
  | 0, s => s
  | fuel + 1, s =>
    match s with
    | '|' :: r =>
      let ds := r.takeWhile (· = '-')
      if ds.isEmpty then s else pgSepSegs fuel (r.drop ds.length)
    | _ => s

def pgTableSeparator (s : List Char) : Option (List Char) :=
  match s with
  | '|' :: r =>
    let ds := r.takeWhile (· = '-')
    if ds.isEmpty then none
    else
      match pgSepSegs (s.length + 1) (r.drop ds.length) with
      | '|' :: r2 => pgNewline r2
      | _ => none
  | _ => none

/-- `TableRow = "|" cells:TableCell+ "|" Newline separator:TableSeparator?`.
Greedy `TableCell+` consumes every `|` it reaches, so the mandatory closing
`"|"` can never match (see `pgTableRow_none`). -/
def pgTableRow (s : List Char) : Option (PNode × List Char) :=
  match s with
  | '|' :: s0 =>
    match pgTableCellsF (s0.length + 1) s0 with
    | ([], _) => none
    | (cells, r) =>
      match r with
      | '|' :: r1 =>
        match pgNewline r1 with
        | none => none
        | some r2 =>
          match pgTableSeparator r2 with
          | some r3 => some (.tableRow true cells, r3)
          | none => some (.tableRow false cells, r2)
      | _ => none
  | _ => none

end Peg

/-! ### Helper observers used by the claim statements -/

mutual

/-- Does the AST subtree contain a text node carrying `needle`? -/
def astHasText (needle : String) : Ast → Bool
  | .text v => v = needle
  | .document cs => astHasTextL needle cs
  | .heading _ _ _ cs => astHasTextL needle cs
  | .paragraph cs => astHasTextL needle cs
  | .list _ cs => astHasTextL needle cs
  | .listItem _ cs => astHasTextL needle cs

def astHasTextL (needle : String) : List Ast → Bool
  | [] => false
  | a :: rest => astHasText needle a || astHasTextL needle rest

end

mutual

/-- Number of nodes of a given `type` in the subtree. -/
def countType (t : String) : Node → Nat
  | .mk t' _ _ _ _ _ _ _ cs => (if t' = t then 1 else 0) + countTypeL t cs

def countTypeL (t : String) : List Node → Nat
  | [] => 0
  | c :: rest => countType t c + countTypeL t rest

end

/-! ### Support lemmas: the `TableRow` rule of `grammar.pegjs` is
unsatisfiable

`TableCell+` is greedy: a cell succeeds exactly when its content run is
followed by `|`, consuming that `|`; the loop therefore only stops at a
position that does not start with `|`, where the row's mandatory closing
`"|"` must then fail. -/

namespace Peg

theorem pgTableCell_bar (t : List Char) :
    pgTableCell ('|' :: t) = some ("", t) := by
  simp +decide [pgTableCell, List.takeWhile_cons, jsTrim]

theorem pgTableCell_lt {s : List Char} {c : String} {r : List Char}
    (h : pgTableCell s = some (c, r)) : r.length < s.length := by
  dsimp only [pgTableCell] at h
  split at h
  · rename_i r' heq
    injection h with h'
    rw [Prod.mk.injEq] at h'
    obtain ⟨-, rfl⟩ := h'
    have hlen := congrArg List.length heq
    simp [List.length_drop] at hlen
    omega
  · exact absurd h (by simp)

theorem pgCells_end : ∀ (fuel : Nat) (s : List Char), s.length < fuel →
    ∀ t, (pgTableCellsF fuel s).2 ≠ '|' :: t := by
  intro fuel
  induction fuel with
  | zero => intro s hs; omega
  | succ f ih =>
    intro s hs t
    rw [pgTableCellsF]
    rcases hcell : pgTableCell s with _ | ⟨c, r⟩
    · simp only
      intro hbar
      rw [hbar, pgTableCell_bar] at hcell
      exact absurd hcell (by simp)
    · have hlt := pgTableCell_lt hcell
      simp only
      rcases hrec : pgTableCellsF f r with ⟨cs, r'⟩
      simp only
      have := ih r (by omega) t
      rw [hrec] at this
      exact this

theorem pgTableRow_none (s : List Char) : pgTableRow s = none := by
  unfold pgTableRow
  split
  · rename_i s0
    rcases hcells : pgTableCellsF (s0.length + 1) s0 with ⟨cells, r⟩
    cases cells with
    | nil => rfl
    | cons c0 cs0 =>
      cases r with
      | nil => rfl
      | cons rh rt =>
        dsimp only
        by_cases hrh : rh = '|'
        · subst hrh
          exact absurd (show (pgTableCellsF (s0.length + 1) s0).2 = '|' :: rt by
              rw [hcells]) (pgCells_end (s0.length + 1) s0 (Nat.lt_succ_self _) rt)
        · split
          · simp_all
          · rfl
  · rfl

end Peg


/-! ### Totality of the first-draft parser (`parse` never errors),
and unmatched-delimiter lemmas for the markup passes. -/

theorem length_takeWhile_le' (p : Char → Bool) (l : List Char) :
    (l.takeWhile p).length ≤ l.length := by
  have h := congrArg List.length (List.takeWhile_append_dropWhile p l)
  simp only [List.length_append] at h
  omega

theorem pNewline_lt {s r : List Char} (h : pNewline s = some r) :
    r.length < s.length := by
  unfold pNewline at h
  split at h <;> (simp_all; try omega)

theorem pNewlines_le : ∀ s : List Char, (pNewlines s).length ≤ s.length := by
  intro s
  induction s using pNewlines.induct <;> (simp_all [pNewlines]; try omega)

theorem run_aux {p : Char → Bool} {s : List Char} {n : Nat} {r : List Char}
    (h : (if (s.takeWhile p).isEmpty then none
          else some ((s.takeWhile p).length, s.drop (s.takeWhile p).length))
         = some (n, r)) : r.length < s.length := by
  split at h
  · exact absurd h (by simp)
  · rename_i hne
    injection h with h'
    rw [Prod.mk.injEq] at h'
    obtain ⟨-, rfl⟩ := h'
    have h1 := length_takeWhile_le' p s
    have h2 : (s.takeWhile p).length ≠ 0 := by
      simpa [List.isEmpty_iff, List.length_eq_zero] using hne
    simp only [List.length_drop]
    omega

theorem pWs1_lt {s : List Char} {n : Nat} {r : List Char}
    (h : pWs1 s = some (n, r)) : r.length < s.length := run_aux h

theorem pStars_lt {s : List Char} {n : Nat} {r : List Char}
    (h : pStars s = some (n, r)) : r.length < s.length := run_aux h

theorem pTodoKeyword_lt {s : List Char} {k : String} {r : List Char}
    (h : pTodoKeyword s = some (k, r)) : r.length < s.length := by
  unfold pTodoKeyword at h
  split at h
  · exact absurd h (by simp)
  · rename_i k' hfind
    split at h
    · rename_i n r' hws
      injection h with h'
      rw [Prod.mk.injEq] at h'
      obtain ⟨-, rfl⟩ := h'
      have h1 := pWs1_lt hws
      simp only [List.length_drop] at h1
      omega
    · exact absurd h (by simp)

theorem pMarker_lt {s : List Char} {m r : List Char}
    (h : pMarker s = some (m, r)) : r.length < s.length := by
  unfold pMarker at h
  split at h
  · injection h with h'
    rw [Prod.mk.injEq] at h'
    obtain ⟨-, rfl⟩ := h'
    simp
  · injection h with h'
    rw [Prod.mk.injEq] at h'
    obtain ⟨-, rfl⟩ := h'
    simp
  · injection h with h'
    rw [Prod.mk.injEq] at h'
    obtain ⟨-, rfl⟩ := h'
    simp
  · dsimp only at h
    split at h
    · exact absurd h (by simp)
    · split at h
      · rename_i r0 heq
        injection h with h'
        rw [Prod.mk.injEq] at h'
        obtain ⟨-, rfl⟩ := h'
        have := congrArg List.length heq
        simp only [List.length_drop, List.length_cons] at this
        omega
      · exact absurd h (by simp)

theorem pListItemAfterIndent_lt {ind : Nat} {s1 : List Char} {it : RawItem}
    {r : List Char} (h : pListItemAfterIndent ind s1 = some (it, r)) :
    r.length < s1.length := by
  dsimp only [pListItemAfterIndent] at h
  split at h
  · exact absurd h (by simp)
  · rename_i m s2 hm
    split at h
    · exact absurd h (by simp)
    · rename_i w s3 hws
      split at h
      · exact absurd h (by simp)
      · rename_i s5 hnl
        injection h with h'
        rw [Prod.mk.injEq] at h'
        obtain ⟨-, rfl⟩ := h'
        have h1 := pMarker_lt hm
        have h2 := pWs1_lt hws
        have h3 := pNewline_lt hnl
        simp only [List.length_drop] at h3
        omega

theorem pListItem_lt {s : List Char} {it : RawItem} {r : List Char}
    (h : pListItem s = some (it, r)) : r.length < s.length := by
  unfold pListItem at h
  split at h
  · rename_i n r0 hws
    have h1 := pWs1_lt hws
    have h2 := pListItemAfterIndent_lt h
    omega
  · exact pListItemAfterIndent_lt h

theorem pListItemsF_le : ∀ (f : Nat) (s : List Char),
    (pListItemsF f s).2.length ≤ s.length := by
  intro f
  induction f with
  | zero => intro s; simp [pListItemsF]
  | succ f ih =>
    intro s
    rw [pListItemsF]
    rcases hit : pListItem s with _ | ⟨it, r⟩
    · dsimp only
      exact le_rfl
    · dsimp only
      have h1 := pListItem_lt hit
      have h2 := ih r
      rcases hrec : pListItemsF f r with ⟨its, r'⟩
      rw [hrec] at h2
      try rw [hrec]
      dsimp only at h2 ⊢
      omega

theorem pList_lt {s : List Char} {a : Ast} {r : List Char}
    (h : pList s = some (a, r)) : r.length < s.length := by
  unfold pList at h
  rw [pListItemsF] at h
  rcases hit : pListItem s with _ | ⟨it, r1⟩
  · rw [hit] at h
    exact absurd h (by simp)
  · rw [hit] at h
    dsimp only at h
    have h1 := pListItem_lt hit
    have h2 := pListItemsF_le s.length r1
    rcases hrec : pListItemsF s.length r1 with ⟨its, r2⟩
    rw [hrec] at h h2
    dsimp only at h h2
    injection h with h'
    rw [Prod.mk.injEq] at h'
    obtain ⟨-, rfl⟩ := h'
    omega

theorem pList_none {s : List Char} (h : pList s = none) :
    pListItem s = none := by
  rcases hit : pListItem s with _ | ⟨it, r1⟩
  · rfl
  · exfalso
    unfold pList at h
    rw [pListItemsF, hit] at h
    dsimp only at h
    rcases hrec : pListItemsF s.length r1 with ⟨its, r2⟩
    rw [hrec] at h
    dsimp only at h
    exact absurd h (by simp)

theorem takeParaChars_le (hp : List Char → Option (Ast × List Char)) :
    ∀ s : List Char, (takeParaChars hp s).length ≤ s.length := by
  intro s
  induction s with
  | nil => simp [takeParaChars]
  | cons c t ih =>
    rw [takeParaChars]
    split
    · simp
    · split
      · simp
      · split
        · simp
        · simp only [List.length_cons]
          omega

theorem pParagraph_lt {hp : List Char → Option (Ast × List Char)}
    {s : List Char} {a : Ast} {r : List Char}
    (h : pParagraph hp s = some (a, r)) : r.length < s.length := by
  dsimp only [pParagraph] at h
  split at h
  · split at h
    · exact absurd h (by simp)
    · rename_i r0 hnl
      injection h with h'
      rw [Prod.mk.injEq] at h'
      obtain ⟨-, rfl⟩ := h'
      calc (pNewlines r0).length ≤ r0.length := pNewlines_le r0
        _ < s.length := pNewline_lt hnl
  · rename_i hne
    injection h with h'
    rw [Prod.mk.injEq] at h'
    obtain ⟨-, rfl⟩ := h'
    have h1 := pNewlines_le (s.drop (takeParaChars hp s).length)
    have h2 : (takeParaChars hp s).length ≠ 0 := by
      simpa [List.isEmpty_iff, List.length_eq_zero] using hne
    have h3 := takeParaChars_le hp s
    simp only [List.length_drop] at h1
    omega

theorem pHeading_lt {k : List Char → List (Option Ast) × List Char}
    (hk : ∀ t, (k t).2.length ≤ t.length)
    {s : List Char} {a : Ast} {r : List Char}
    (h : pHeading k s = some (a, r)) : r.length < s.length := by
  unfold pHeading at h
  split at h
  · exact absurd h (by simp)
  · rename_i n s1 hstars
    split at h
    · exact absurd h (by simp)
    · rename_i w s2 hws
      have h1 := pStars_lt hstars
      have h2 := pWs1_lt hws
      rcases htd : pTodoKeyword s2 with _ | ⟨kw, r1⟩ <;> rw [htd] at h <;>
        dsimp only at h
      · split at h
        · exact absurd h (by simp)
        · rename_i s5 hnl
          rcases hk5 : k s5 with ⟨cs, s6⟩
          rw [hk5] at h
          dsimp only at h
          injection h with h'
          rw [Prod.mk.injEq] at h'
          obtain ⟨-, rfl⟩ := h'
          have h3 := pNewline_lt hnl
          have h4 := hk s5
          rw [hk5] at h4
          dsimp only at h4
          simp only [List.length_drop] at h3
          omega
      · split at h
        · exact absurd h (by simp)
        · rename_i s5 hnl
          rcases hk5 : k s5 with ⟨cs, s6⟩
          rw [hk5] at h
          dsimp only at h
          injection h with h'
          rw [Prod.mk.injEq] at h'
          obtain ⟨-, rfl⟩ := h'
          have h3 := pNewline_lt hnl
          have h4 := hk s5
          rw [hk5] at h4
          dsimp only at h4
          have h5 := pTodoKeyword_lt htd
          simp only [List.length_drop] at h3
          omega

theorem pElemStep_lt {hp : List Char → Option (Ast × List Char)}
    {s : List Char} {a : Option Ast} {r : List Char}
    (hhp : ∀ {a' : Ast} {r' : List Char}, hp s = some (a', r') → r'.length < s.length)
    (h : pElemStep hp s = some (a, r)) : r.length < s.length := by
  unfold pElemStep at h
  split at h
  · rename_i a0 r0 hh
    injection h with h'
    rw [Prod.mk.injEq] at h'
    obtain ⟨-, rfl⟩ := h'
    exact hhp hh
  · split at h
    · rename_i a0 r0 hl
      injection h with h'
      rw [Prod.mk.injEq] at h'
      obtain ⟨-, rfl⟩ := h'
      exact pList_lt hl
    · split at h
      · rename_i a0 r0 hpg
        injection h with h'
        rw [Prod.mk.injEq] at h'
        obtain ⟨-, rfl⟩ := h'
        exact pParagraph_lt hpg
      · split at h
        · rename_i r0 hnl
          injection h with h'
          rw [Prod.mk.injEq] at h'
          obtain ⟨-, rfl⟩ := h'
          exact pNewline_lt hnl
        · exact absurd h (by simp)

theorem pElems_le : ∀ (f : Nat) (s : List Char),
    (pElems f s).2.length ≤ s.length := by
  intro f
  induction f with
  | zero => intro s; simp [pElems]
  | succ f ih =>
    intro s
    rw [pElems]
    rcases hstep : pElemStep (pHeading (pElems f)) s with _ | ⟨a, r⟩
    · simp
    · have hr : r.length < s.length :=
        pElemStep_lt (fun hh => pHeading_lt ih hh) hstep
      have h2 := ih r
      rcases hrec : pElems f r with ⟨as, r'⟩
      rw [hrec] at h2
      have h5 : (pElems f r).2.length = r'.length := by rw [hrec]
      dsimp only at h2 ⊢
      omega

theorem takeParaChars_nil {hp : List Char → Option (Ast × List Char)}
    {c : Char} {t : List Char} (h : takeParaChars hp (c :: t) = []) :
    (hp (c :: t)).isSome = true ∨ (pListItem (c :: t)).isSome = true ∨
      (pNewline (c :: t)).isSome = true := by
  rw [takeParaChars] at h
  split at h
  · rename_i h1; exact Or.inl h1
  · split at h
    · rename_i h2; exact Or.inr (Or.inl h2)
    · split at h
      · rename_i h3; exact Or.inr (Or.inr h3)
      · exact absurd h (by simp)

theorem pElemStep_isSome (hp : List Char → Option (Ast × List Char))
    (c : Char) (t : List Char) : pElemStep hp (c :: t) ≠ none := by
  intro h
  unfold pElemStep at h
  split at h
  · simp at h
  · rename_i hh
    split at h
    · simp at h
    · rename_i hl
      split at h
      · simp at h
      · rename_i hpg
        split at h
        · simp at h
        · rename_i hnl
          dsimp only [pParagraph] at hpg
          split at hpg
          · rename_i hcs
            rcases takeParaChars_nil (List.isEmpty_iff.mp hcs) with h1 | h2 | h3
            · rw [hh] at h1; simp at h1
            · rw [pList_none hl] at h2; simp at h2
            · rw [hnl] at h3; simp at h3
          · simp at hpg


theorem pElems_consume : ∀ (f : Nat) (s : List Char), s.length ≤ f →
    (pElems f s).2 = [] := by
  intro f
  induction f with
  | zero =>
    intro s hs
    have : s = [] := by cases s <;> simp_all
    subst this
    rfl
  | succ f ih =>
    intro s hs
    cases s with
    | nil => rfl
    | cons c t =>
      rw [pElems]
      rcases hstep : pElemStep (pHeading (pElems f)) (c :: t) with _ | ⟨a, r⟩
      · exact absurd hstep (pElemStep_isSome _ c t)
      · have hr : r.length < (c :: t).length :=
          pElemStep_lt (fun hh => pHeading_lt (pElems_le f) hh) hstep
        have hconsume := ih r (by simp only [List.length_cons] at hr hs; omega)
        rcases hrec : pElems f r with ⟨as, r'⟩
        rw [hrec] at hconsume
        dsimp only at hconsume ⊢
        have h5 : (pElems f r).2 = r' := by rw [hrec]
        rw [h5]
        exact hconsume

theorem parse_ok (opts : ParseOptions) (s : String) :
    ∃ d, parse opts s = .ok d := by
  unfold parse pDocument
  set pre := preProcessStrikethrough (s.toList.length + 1) s.toList with hpre
  have hcons : (pElems (pre.length + 1) (pNewlines pre)).2 = [] :=
    pElems_consume _ _ (le_trans (pNewlines_le _) (Nat.le_succ _))
  rcases he : pElems (pre.length + 1) (pNewlines pre) with ⟨cs, r⟩
  rw [he] at hcons
  dsimp only at hcons
  subst hcons
  dsimp only
  rw [he]
  exact ⟨_, rfl⟩

theorem drop_takeWhile (p : Char → Bool) (l : List Char) :
    l.drop (l.takeWhile p).length = l.dropWhile p := by
  nth_rewrite 2 [← List.takeWhile_append_dropWhile (p := p) (l := l)]
  exact List.drop_left _ _

theorem spanContent_none {c : Char} {xs : List Char} (hnm : c ∉ xs) :
    spanContent c xs = none := by
  dsimp only [spanContent]
  split
  · rfl
  · rw [drop_takeWhile]
    rcases hdw : xs.dropWhile (fun x => x != c && x != '\n') with _ | ⟨y, r⟩
    · rfl
    · have hy : y ∈ xs := by
        have := (List.dropWhile_sublist (l := xs)
          (p := fun x => x != c && x != '\n')).subset
        apply this
        rw [hdw]
        exact List.mem_cons_self y r
      have hyc : y ≠ c := fun hh => hnm (hh ▸ hy)
      simp [hyc]

theorem findSpan_none {c : Char} : ∀ (v : List Char), v.count c ≤ 1 →
    findSpan c v = none := by
  intro v
  induction v with
  | nil => intro _; rfl
  | cons x xs ih =>
    intro hcount
    rw [findSpan]
    by_cases hx : x = c
    · subst hx
      rw [if_pos rfl]
      have hc0 : xs.count x = 0 := by
        rw [List.count_cons] at hcount
        simp at hcount
        omega
      rw [spanContent_none (List.count_eq_zero.mp hc0)]
      rw [ih (by omega)]
    · rw [if_neg hx]
      rw [ih (by rw [List.count_cons] at hcount; simp [Ne.symm hx] at hcount; omega)]

theorem processBold_unmatched (v : List Char) (h : v.count '*' ≤ 1) :
    processBold [tx (String.mk v)] = [tx (String.mk v)] := by
  by_cases hv : v = []
  · subst hv; rfl
  · have hne : String.mk v ≠ "" := by
      intro hh
      exact hv (congrArg String.toList hh)
    unfold processBold passGeneric
    rw [List.map]
    have ht : (tx (String.mk v)).type = "text" := rfl
    have hval : (tx (String.mk v)).value = String.mk v := rfl
    rw [ht, hval]
    simp only [bne_self_eq_false, Bool.false_eq_true, if_false, if_neg hne]
    have htl : (String.mk v).toList = v := rfl
    rw [htl]
    rw [splitChunks]
    rw [findSpan_none v h]
    simp [List.isEmpty_iff, hv]

/-! ### List reconstruction invariants for `processListItems` -/

mutual

/-- The text leaves of an AST, in order. -/
def astTexts : Ast → List String
  | .text v => [v]
  | .document cs => astTextsL cs
  | .heading _ _ _ cs => astTextsL cs
  | .paragraph cs => astTextsL cs
  | .list _ cs => astTextsL cs
  | .listItem _ cs => astTextsL cs

def astTextsL : List Ast → List String
  | [] => []
  | a :: rest => astTexts a ++ astTextsL rest

end

/-- Whether an AST node is a `list_item` (the shape of every element of a
frame accumulator). -/
def isItem : Ast → Bool
  | .listItem _ _ => true
  | _ => false

/-- The text leaves collected in a frame stack, bottom frame first. -/
def stackTexts : List Frame → List String
  | [] => []
  | f :: rest => stackTexts rest ++ astTextsL f.acc

theorem astTextsL_append (xs ys : List Ast) :
    astTextsL (xs ++ ys) = astTextsL xs ++ astTextsL ys := by
  induction xs with
  | nil => rfl
  | cons a rest ih => simp [astTextsL, ih]

theorem addChildAst_texts {x : Ast} (hx : isItem x = true) (a : Ast) :
    astTexts (addChildAst x a) = astTexts x ++ astTexts a := by
  cases x <;> simp_all [isItem, addChildAst, astTexts, astTextsL_append, astTextsL]

theorem addChildAst_isItem {x : Ast} (hx : isItem x = true) (a : Ast) :
    isItem (addChildAst x a) = true := by
  cases x <;> simp_all [isItem, addChildAst]

theorem attachToLast_texts {acc : List Ast} (hne : acc ≠ [])
    (hok : acc.all isItem = true) (a : Ast) :
    astTextsL (attachToLast acc a) = astTextsL acc ++ astTexts a := by
  induction acc with
  | nil => exact absurd rfl hne
  | cons x rest ih =>
    cases rest with
    | nil =>
      simp only [List.all_cons, List.all_nil, Bool.and_true] at hok
      simp [attachToLast, astTextsL, addChildAst_texts hok]
    | cons y r =>
      simp only [List.all_cons] at hok
      simp only [attachToLast, astTextsL]
      rw [ih (by simp) (by simp_all)]
      simp [astTextsL]

theorem attachToLast_all {acc : List Ast} (hok : acc.all isItem = true)
    (a : Ast) : (attachToLast acc a).all isItem = true := by
  induction acc with
  | nil => rfl
  | cons x rest ih =>
    cases rest with
    | nil =>
      simp only [List.all_cons, List.all_nil, Bool.and_true] at hok
      simp [attachToLast, addChildAst_isItem hok]
    | cons y r =>
      simp only [List.all_cons] at hok
      simp only [attachToLast, List.all_cons]
      simp_all

theorem attachToLast_length (acc : List Ast) (a : Ast) :
    (attachToLast acc a).length = acc.length := by
  induction acc with
  | nil => rfl
  | cons x rest ih =>
    cases rest with
    | nil => rfl
    | cons y r => simp_all [attachToLast]

/-- The running invariant of the `processListItems` loop once the first
item has been pushed: the stack is nonempty and every frame accumulator is
a nonempty list of `list_item` nodes. -/
def stInv (fs : List Frame) : Prop :=
  fs ≠ [] ∧ ∀ f ∈ fs, f.acc ≠ [] ∧ f.acc.all isItem = true

/-- The weaker invariant holding right after a new (still empty) frame may
have been pushed: only the frames below the top are known nonempty. -/
def preInv (fs : List Frame) : Prop :=
  fs ≠ [] ∧ (∀ f ∈ fs, f.acc.all isItem = true) ∧ ∀ f ∈ fs.tail, f.acc ≠ []

theorem stInv_preInv {fs : List Frame} (h : stInv fs) : preInv fs := by
  obtain ⟨hne, hall⟩ := h
  refine ⟨hne, fun f hf => (hall f hf).2, fun f hf => ?_⟩
  exact (hall f (List.mem_of_mem_tail hf)).1

theorem preInv_push {fs : List Frame} (h : stInv fs) (l : Nat) (o : Bool) :
    preInv (⟨l, o, []⟩ :: fs) := by
  obtain ⟨hne, hall⟩ := h
  exact ⟨by simp, by
    intro f hf
    rcases List.mem_cons.mp hf with h1 | h1
    · subst h1; rfl
    · exact (hall f h1).2, fun f hf => (hall f hf).1⟩

theorem popOne_inv {fs : List Frame} (h : stInv fs) : stInv (popOne fs) ∧
    stackTexts (popOne fs) = stackTexts fs := by
  obtain ⟨hne, hall⟩ := h
  match fs with
  | [] => exact absurd rfl hne
  | [f] => exact ⟨⟨hne, hall⟩, rfl⟩
  | f :: g :: rest =>
    have hf := hall f (by simp)
    have hg := hall g (by simp)
    constructor
    · refine ⟨by simp [popOne], ?_⟩
      intro f' hf'
      simp only [popOne, List.mem_cons] at hf'
      rcases hf' with h1 | h2
      · subst h1
        refine ⟨?_, attachToLast_all hg.2 _⟩
        intro hnil
        dsimp only at hnil
        have := attachToLast_length g.acc (.list f.ordered f.acc)
        rw [hnil] at this
        exact hg.1 (List.length_eq_zero.mp this.symm)
      · exact hall f' (by simp [h2])
    · simp only [popOne, stackTexts]
      rw [attachToLast_texts hg.1 hg.2]
      simp [astTexts, List.append_assoc]

theorem popWhileF_inv : ∀ (fuel d : Nat) {fs : List Frame}, stInv fs →
    stInv (popWhileF fuel d fs) ∧
    stackTexts (popWhileF fuel d fs) = stackTexts fs := by
  intro fuel
  induction fuel with
  | zero => intro d fs h; exact ⟨h, rfl⟩
  | succ n ih =>
    intro d fs h
    match fs with
    | [] => exact absurd rfl h.1
    | [f] => exact ⟨h, rfl⟩
    | f :: g :: rest =>
      simp only [popWhileF]
      split
      · have hp := popOne_inv h
        have := ih d hp.1
        exact ⟨this.1, by rw [this.2, hp.2]⟩
      · exact ⟨h, rfl⟩

theorem itemAst_isItem (it : RawItem) : isItem (itemAst it) = true := rfl

theorem itemAst_texts (it : RawItem) : astTexts (itemAst it) = [it.content] := by
  simp [itemAst, astTexts, astTextsL]

theorem pushTop_inv {fs : List Frame} (h : preInv fs) (it : RawItem) :
    stInv (pushTop fs (itemAst it)) ∧
    stackTexts (pushTop fs (itemAst it)) =
      stackTexts fs ++ [it.content] := by
  obtain ⟨hne, hall, htail⟩ := h
  match fs with
  | [] => exact absurd rfl hne
  | f :: rest =>
    constructor
    · refine ⟨by simp [pushTop], ?_⟩
      intro f' hf'
      simp only [pushTop, List.mem_cons] at hf'
      rcases hf' with h1 | h1
      · subst h1
        refine ⟨by simp, ?_⟩
        try dsimp only
        rw [List.all_append]
        simp [hall f (by simp) , itemAst_isItem]
      · exact ⟨htail f' h1, hall f' (by simp [h1])⟩
    · simp only [pushTop, stackTexts]
      try dsimp only
      rw [astTextsL_append]
      simp [astTextsL, itemAst_texts]

theorem plStep_eq (fs : List Frame) (cur : Nat) (it : RawItem) :
    plStep (fs, cur, true) it =
      (pushTop (if cur < it.indent then ⟨it.indent, it.ordered, []⟩ :: fs
        else if it.indent < cur then popWhileF fs.length it.indent fs else fs)
       (itemAst it), it.indent, true) := rfl

/-- One loop iteration from an invariant state keeps the invariant and
appends the item content to the collected texts. -/
theorem plStep_inv {fs : List Frame} (cur : Nat) (it : RawItem)
    (h : stInv fs) :
    stInv (plStep (fs, cur, true) it).1 ∧
    stackTexts (plStep (fs, cur, true) it).1 =
      stackTexts fs ++ [it.content] := by
  rw [plStep_eq]
  have hpre : preInv (if cur < it.indent then ⟨it.indent, it.ordered, []⟩ :: fs
      else if it.indent < cur then popWhileF fs.length it.indent fs else fs) ∧
      stackTexts (if cur < it.indent then ⟨it.indent, it.ordered, []⟩ :: fs
      else if it.indent < cur then popWhileF fs.length it.indent fs else fs) =
      stackTexts fs := by
    by_cases h1 : cur < it.indent
    · rw [if_pos h1]
      exact ⟨preInv_push h it.indent it.ordered, by simp [stackTexts, astTextsL]⟩
    · rw [if_neg h1]
      by_cases h2 : it.indent < cur
      · rw [if_pos h2]
        have hw := popWhileF_inv fs.length it.indent h
        exact ⟨stInv_preInv hw.1, hw.2⟩
      · rw [if_neg h2]
        exact ⟨stInv_preInv h, rfl⟩
  have hp := pushTop_inv hpre.1 it
  exact ⟨hp.1, by dsimp only; rw [hp.2, hpre.2]⟩

theorem foldl_plStep_inv : ∀ (items : List RawItem) {fs : List Frame}
    (cur : Nat), stInv fs →
    stInv (items.foldl plStep (fs, cur, true)).1 ∧
    stackTexts (items.foldl plStep (fs, cur, true)).1 =
      stackTexts fs ++ items.map (fun it => it.content) := by
  intro items
  induction items with
  | nil => intro fs cur h; exact ⟨h, by simp⟩
  | cons it rest ih =>
    intro fs cur h
    rw [List.foldl_cons]
    have h1 := plStep_inv cur it h
    rw [plStep_eq] at h1 ⊢
    dsimp only at h1
    have h2 := ih it.indent h1.1
    refine ⟨h2.1, ?_⟩
    rw [h2.2, h1.2]
    simp

/-- The first loop iteration (from the initial state, where
`currentItem === null`) pushes the item into the root frame without
opening a nested frame, whatever its indentation is. -/
theorem plStep_first (it : RawItem) :
    plStep ([⟨0, false, []⟩], 0, false) it =
      ([⟨0, false, [itemAst it]⟩], it.indent, true) := by
  dsimp only [plStep]
  by_cases h1 : 0 < it.indent
  · rw [if_pos h1]; rfl
  · rw [if_neg h1, if_neg (Nat.not_lt_zero _)]; rfl

theorem popAllF_single : ∀ (fuel : Nat) (fs : List Frame), stInv fs →
    fs.length ≤ fuel →
    ∃ f, popAllF fuel fs = [f] ∧ astTextsL f.acc = stackTexts fs := by
  intro fuel
  induction fuel with
  | zero =>
    intro fs h hl
    exact absurd (List.length_eq_zero.mp (Nat.le_zero.mp hl)) h.1
  | succ n ih =>
    intro fs h hl
    match fs with
    | [] => exact absurd rfl h.1
    | [f] => exact ⟨f, rfl, rfl⟩
    | f :: g :: rest =>
      have hp := popOne_inv h
      have hlen : (popOne (f :: g :: rest)).length ≤ n := by
        simp only [popOne, List.length_cons]
        simp only [List.length_cons] at hl
        omega
      obtain ⟨f', h1, h2⟩ := ih _ hp.1 hlen
      refine ⟨f', ?_, by rw [h2, hp.2]⟩
      show popAllF n (popOne (f :: g :: rest)) = [f']
      exact h1

/-- For every raw item sequence, reconstruction preserves every item
content, in order: the text leaves of the rebuilt tree are exactly the
contents of the input items. -/
theorem processListItems_texts (items : List RawItem) :
    astTextsL (processListItems items) =
      items.map (fun it => it.content) := by
  cases items with
  | nil => rfl
  | cons it rest =>
    dsimp only [processListItems]
    rw [List.foldl_cons, plStep_first]
    have hinv : stInv [⟨0, false, [itemAst it]⟩] := by
      refine ⟨by simp, ?_⟩
      intro f hf
      simp only [List.mem_cons, List.not_mem_nil, or_false] at hf
      subst hf
      exact ⟨by simp, by simp [itemAst_isItem]⟩
    have hf := foldl_plStep_inv rest it.indent hinv
    rcases hE : rest.foldl plStep ([⟨0, false, [itemAst it]⟩], it.indent, true)
      with ⟨stack, cur2, st2⟩
    rw [hE] at hf
    dsimp only at hf ⊢
    obtain ⟨f, hpa, hft⟩ := popAllF_single stack.length stack hf.1 (Nat.le_refl _)
    rw [hpa]
    dsimp only
    rw [hft, hf.2]
    simp [stackTexts, astTextsL, itemAst_texts]

/-- An item strictly deeper than its predecessor opens a nested list
attached to that predecessor. -/
theorem processListItems_nest (a b : RawItem) (h : a.indent < b.indent) :
    processListItems [a, b] =
      [.listItem a.ordered [.text a.content,
        .list b.ordered [.listItem b.ordered [.text b.content]]]] := by
  dsimp only [processListItems]
  rw [List.foldl_cons, plStep_first, List.foldl_cons, plStep_eq, if_pos h]
  simp [pushTop, popAllF, popOne, attachToLast, addChildAst, itemAst]

/-- An item not deeper than its predecessor becomes its sibling. -/
theorem processListItems_sib (a b : RawItem) (h : ¬ a.indent < b.indent) :
    processListItems [a, b] = [itemAst a, itemAst b] := by
  dsimp only [processListItems]
  rw [List.foldl_cons, plStep_first, List.foldl_cons, plStep_eq, if_neg h]
  by_cases h2 : b.indent < a.indent
  · rw [if_pos h2]
    simp [popWhileF, pushTop, popAllF, itemAst]
  · rw [if_neg h2]
    simp [pushTop, popAllF, itemAst]

/-! ### Parent back-references: `appendChild` versus `splice` -/

mutual

/-- Every node below this one occupies a children slot whose element
carries the parent back-reference (set by `appendChild`). -/
def nodeLinkedOK : Node → Bool
  | .mk _ _ _ _ _ _ _ _ cs => childrenLinkedOK cs

def childrenLinkedOK : List Node → Bool
  | [] => true
  | c :: rest => c.plinked && nodeLinkedOK c && childrenLinkedOK rest

end

mutual

/-- Number of AST nodes in the subtree (for strong induction). -/
def astSize : Ast → Nat
  | .text _ => 1
  | .document cs => astSizeL cs + 1
  | .heading _ _ _ cs => astSizeL cs + 1
  | .paragraph cs => astSizeL cs + 1
  | .list _ cs => astSizeL cs + 1
  | .listItem _ cs => astSizeL cs + 1

def astSizeL : List Ast → Nat
  | [] => 0
  | a :: rest => astSize a + astSizeL rest

end

theorem astSize_pos (a : Ast) : 1 ≤ astSize a := by
  cases a <;> simp [astSize]

theorem nodeLinkedOK_withLinked (n : Node) (b : Bool) :
    nodeLinkedOK (n.withLinked b) = nodeLinkedOK n := by
  cases n; rfl

theorem createNode_linked_aux : ∀ k : Nat,
    (∀ a : Ast, astSize a ≤ k → nodeLinkedOK (createNode a) = true) ∧
    (∀ cs : List Ast, astSizeL cs ≤ k →
      childrenLinkedOK (createChildren cs) = true) := by
  intro k
  induction k with
  | zero =>
    constructor
    · intro a ha
      exact absurd (Nat.le_trans (astSize_pos a) ha) (by omega)
    · intro cs hcs
      cases cs with
      | nil => rfl
      | cons a rest =>
        exfalso
        have := astSize_pos a
        simp only [astSizeL] at hcs
        omega
  | succ n ih =>
    have h1 : ∀ a : Ast, astSize a ≤ n + 1 →
        nodeLinkedOK (createNode a) = true := by
      intro a ha
      cases a with
      | text v => rfl
      | document cs =>
        simp only [astSize] at ha
        exact ih.2 cs (by omega)
      | heading lvl title todo cs =>
        simp only [astSize] at ha
        exact ih.2 cs (by omega)
      | paragraph cs =>
        simp only [astSize] at ha
        exact ih.2 cs (by omega)
      | list ord cs =>
        simp only [astSize] at ha
        exact ih.2 cs (by omega)
      | listItem ord cs =>
        simp only [astSize] at ha
        exact ih.2 cs (by omega)
    refine ⟨h1, ?_⟩
    intro cs hcs
    cases cs with
    | nil => rfl
    | cons a rest =>
      simp only [astSizeL] at hcs
      have ha := astSize_pos a
      show (((createNode a).withLinked true).plinked &&
        nodeLinkedOK ((createNode a).withLinked true) &&
        childrenLinkedOK (createChildren rest)) = true
      have hp : ((createNode a).withLinked true).plinked = true := by
        cases hcn : createNode a; rfl
      rw [hp, nodeLinkedOK_withLinked, h1 a (by omega),
        ih.2 rest (by omega)]
      rfl

/-- Every children array assembled by `createNode` — at every depth — holds
only parent-linked nodes (`appendChild` sets the back-reference). -/
theorem createNode_linked (a : Ast) : nodeLinkedOK (createNode a) = true :=
  (createNode_linked_aux (astSize a)).1 a (Nat.le_refl _)

theorem passGeneric_single
    (find : List Char → Option (List Char × List Char × List Char))
    (mkSpan : List Char → Node) (hm : ∀ c, (mkSpan c).plinked = false)
    (m : Node) (h0 : m.plinked = false) :
    ∀ n ∈ passGeneric find mkSpan [m], n.plinked = false := by
  intro n hmem
  simp only [passGeneric, List.map_cons, List.map_nil, List.flatten_cons,
    List.flatten_nil, List.append_nil] at hmem
  split at hmem
  · simp only [List.mem_singleton] at hmem
    subst hmem; exact h0
  · split at hmem
    · simp only [List.mem_singleton] at hmem
      subst hmem; exact h0
    · simp only [List.mem_map] at hmem
      obtain ⟨ch, hch1, hch⟩ := hmem
      subst hch
      match ch with
      | .inl cs => rfl
      | .inr content => exact hm content

theorem passGeneric_cons
    (find : List Char → Option (List Char × List Char × List Char))
    (mkSpan : List Char → Node) (m : Node) (rest : List Node) :
    passGeneric find mkSpan (m :: rest) =
      passGeneric find mkSpan [m] ++ passGeneric find mkSpan rest := by
  simp [passGeneric]

theorem passGeneric_unlinked
    (find : List Char → Option (List Char × List Char × List Char))
    (mkSpan : List Char → Node) (hm : ∀ c, (mkSpan c).plinked = false) :
    ∀ nodes : List Node, (∀ n ∈ nodes, n.plinked = false) →
    ∀ n ∈ passGeneric find mkSpan nodes, n.plinked = false := by
  intro nodes
  induction nodes with
  | nil =>
    intro _ n hmem
    simp [passGeneric] at hmem
  | cons m rest ih =>
    intro hn n hmem
    rw [passGeneric_cons] at hmem
    rcases List.mem_append.mp hmem with h | h
    · exact passGeneric_single find mkSpan hm m (hn m (by simp)) n h
    · exact ih (fun x hx => hn x (by simp [hx])) n h

/-- Every node spliced into a children array by the markup pass lacks the
parent back-reference (`splice` sets none). -/
theorem processTextMarkupInString_unlinked (v : String) :
    ∀ n ∈ processTextMarkupInString v, n.plinked = false := by
  by_cases hv : v = ""
  · subst hv
    intro n hn
    rw [show processTextMarkupInString "" = [tx ""] by
      simp [processTextMarkupInString]] at hn
    simp only [List.mem_singleton] at hn
    subst hn; rfl
  · intro n hn
    rw [processTextMarkupInString, if_neg hv] at hn
    have h0 : ∀ m ∈ [tx v], Node.plinked m = false := by
      intro m hm
      simp only [List.mem_singleton] at hm
      subst hm; rfl
    have h1 : ∀ m ∈ processBold [tx v], m.plinked = false :=
      passGeneric_unlinked (findSpan '*') (markNode "bold")
        (fun c => rfl) _ h0
    have h2 : ∀ m ∈ processItalic (processBold [tx v]),
        m.plinked = false :=
      passGeneric_unlinked (findSpan '/') (markNode "italic")
        (fun c => rfl) _ h1
    have h3 : ∀ m ∈ processUnderline (processItalic (processBold [tx v])),
        m.plinked = false :=
      passGeneric_unlinked (findSpan '_') (markNode "underline")
        (fun c => rfl) _ h2
    have h4 : ∀ m ∈ processStrikeThrough (processUnderline (processItalic
        (processBold [tx v]))), m.plinked = false :=
      passGeneric_unlinked findStrike (markNode "strikethrough")
        (fun c => rfl) _ h3
    have h5 : ∀ m ∈ processCode (processStrikeThrough (processUnderline
        (processItalic (processBold [tx v])))), m.plinked = false :=
      passGeneric_unlinked (findSpan '~')
        (fun content => .mk "code" (String.mk content) 0 "" none false "" false [])
        (fun c => rfl) _ h4
    have h6 : ∀ m ∈ processVerbatim (processCode (processStrikeThrough
        (processUnderline (processItalic (processBold [tx v]))))),
        m.plinked = false :=
      passGeneric_unlinked (findSpan '=')
        (fun content => .mk "verbatim" (String.mk content) 0 "" none false "" false [])
        (fun c => rfl) _ h5
    exact h6 n hn

/-! ## Claim theorems -/

/-- C1: the claim says a heading of level N becomes a child of the nearest
preceding heading with level < N (so consecutive level-1 headings are
siblings under the root). The code's `heading` rule instead swallows every
following element — including any later heading, whatever its level — into
the current heading's children: on the repository's own test input
(`index.test.ts`, "should handle multiple headings", which expects two root
children), the document has a single root child and the second level-1
heading "Heading 3" ends up a child of the level-2 "Heading 2". -/
theorem heading_nesting_code_bug :
    parse defaultOptions
      "* Heading 1\nContent 1\n** Heading 2\nContent 2\n* Heading 3\nContent 3" =
    .ok (.mk "document" "" 0 "" none false "" false
      [.mk "heading" "" 1 "Heading 1" none false "" true
        [.mk "paragraph" "" 0 "" none false "" true
          [.mk "text" "Content 1" 0 "" none false "" false []],
         .mk "heading" "" 2 "Heading 2" none false "" true
          [.mk "paragraph" "" 0 "" none false "" true
            [.mk "text" "Content 2" 0 "" none false "" false []],
           .mk "heading" "" 1 "Heading 3" none false "" true
            [.mk "paragraph" "" 0 "" none false "" true
              [.mk "text" "Content 3" 0 "" none false "" false []]]]]]) := rfl

/-- C2 counterexample: for depths `[0, 2, 1]` the claim's iff makes the
third item (depth 1) a child of the first (depth 0): the first precedes it,
0 < 1, and the only item in between has depth 2 > 0. `processListItems`
instead pops down to the root frame (level 0 ≤ 1) and appends the third item
there: it is a top-level sibling of the first item, and the first item's
subtree does not contain it. -/
theorem listNesting_counterexample :
    processListItems [⟨false, "a", 0⟩, ⟨false, "b", 2⟩, ⟨false, "c", 1⟩] =
      [.listItem false [.text "a", .list false [.listItem false [.text "b"]]],
       .listItem false [.text "c"]] ∧
    astHasText "c"
      (.listItem false [.text "a", .list false [.listItem false [.text "b"]]])
      = false :=
  ⟨rfl, rfl⟩

/-- C2 amended: list reconstruction never errors and preserves every item
content in input order, for all indentation depth sequences; an item
strictly deeper than its immediate predecessor opens a nested list attached
to that predecessor, and an item not deeper than its predecessor becomes
its sibling in the current frame — but the claimed iff-characterization
(child of the nearest shallower j with no intermediate item of depth
≤ depth j) does not hold: when the depth decreases, the code closes every
frame whose recorded level exceeds the new depth and the item joins the
surviving frame directly, without re-nesting under a shallower item. -/
theorem listNesting_amended :
    (∀ items : List RawItem,
      astTextsL (processListItems items) =
        items.map (fun it => it.content)) ∧
    (∀ a b : RawItem, a.indent < b.indent →
      processListItems [a, b] =
        [.listItem a.ordered [.text a.content,
          .list b.ordered [.listItem b.ordered [.text b.content]]]]) ∧
    (∀ a b : RawItem, ¬ a.indent < b.indent →
      processListItems [a, b] = [itemAst a, itemAst b]) :=
  ⟨processListItems_texts, processListItems_nest, processListItems_sib⟩

theorem listNesting_amended_witness :
    astTextsL (processListItems
      [⟨false, "a", 0⟩, ⟨false, "b", 2⟩, ⟨false, "c", 1⟩]) =
        ["a", "b", "c"] ∧
    processListItems [⟨false, "a", 0⟩, ⟨false, "b", 2⟩] =
      [.listItem false [.text "a",
        .list false [.listItem false [.text "b"]]]] ∧
    processListItems [⟨false, "a", 1⟩, ⟨false, "b", 1⟩] =
      [itemAst ⟨false, "a", 1⟩, itemAst ⟨false, "b", 1⟩] :=
  ⟨listNesting_amended.1 _, listNesting_amended.2.1 _ _ (by decide),
   listNesting_amended.2.2 _ _ (by decide)⟩

/-- C3: the inline markup segmentation of `"plain *bold* plain"` yields
exactly three sibling nodes — Text("plain "), Bold(Text("bold")),
Text(" plain") — produced by the six passes in their fixed order
(Bold, Italic, Underline, Strikethrough, Code, Verbatim), each pass
rescanning only text nodes (`processTextMarkupInString`). -/
theorem inline_segmentation_three_nodes :
    processTextMarkupInString "plain *bold* plain" =
      [.mk "text" "plain " 0 "" none false "" false [],
       .mk "bold" "" 0 "" none false "" false
         [.mk "text" "bold" 0 "" none false "" true []],
       .mk "text" " plain" 0 "" none false "" false []] := rfl

/-- C4 counterexample: the line `"+a - b+\n"` satisfies the claim's
precondition (content "a - b" is non-empty, has no interior `+` and no
newline, and both delimiters are adjacent to non-whitespace), yet the parse
does not produce a paragraph whose first inline node is a Strikethrough: the
pre-marking sentinel is split by the `!list_item` lookahead at the interior
`" - "`, the leaked sentinel text becomes the paragraph's first (text) node,
and the tail of the line becomes a List. -/
theorem strikethrough_counterexample :
    parse defaultOptions "+a - b+\n" =
    .ok (.mk "document" "" 0 "" none false "" false
      [.mk "paragraph" "" 0 "" none false "" true
        [.mk "text" "§§STRIKETHROUGH§§a" 0 "" none false "" false []],
       .mk "list" "" 0 "" none false "unordered" true
        [.mk "list_item" "" 0 "" none false "" true
          [.mk "text" "b§§ENDSTRIKETHROUGH§§" 0 "" none false "" false []]]]) := rfl

/-- The list-item rule rejects a line whose `+` is followed by
non-whitespace: after the `+` marker the rule demands `whitespace = [ \t]+`. -/
theorem listItem_plus_nonws (c : Char) (rest : List Char)
    (h : isWsChar c = false) : pListItem ('+' :: c :: rest) = none := by
  simp +decide [pListItem, pListItemAfterIndent, pWs1, pMarker,
    List.takeWhile_cons, h]

/-- The parse of `"+ab+ x\n"`: a paragraph opening with a Strikethrough. -/
def c4Tree : Node :=
  .mk "document" "" 0 "" none false "" false
    [.mk "paragraph" "" 0 "" none false "" true
      [.mk "strikethrough" "" 0 "" none false "" false
        [.mk "text" "ab" 0 "" none false "" true []],
       .mk "text" " x" 0 "" none false "" false []]]

/-- C4 amended: a leading `+` adjacent to a non-whitespace character is
never read as a list-item marker (the `list_item` rule fails on any such
line), and when the `+text+` content also has no interior whitespace the
line does become a paragraph whose first inline node is a Strikethrough —
shown for `"+ab+ x\n"`. (Content with interior whitespace can be torn apart
by the list rule: see the counterexample.) -/
theorem strikethrough_amended :
    (∀ (c : Char) (rest : List Char), isWsChar c = false →
        pListItem ('+' :: c :: rest) = none) ∧
    parse defaultOptions "+ab+ x\n" = .ok c4Tree :=
  ⟨listItem_plus_nonws, rfl⟩

/-- Witness for the amended C4 at a concrete input. -/
theorem strikethrough_amended_witness :
    pListItem ('+' :: 'a' :: "b+ x\n".toList) = none ∧
    parse defaultOptions "+ab+ x\n" = .ok c4Tree :=
  ⟨strikethrough_amended.1 'a' "b+ x\n".toList (by decide),
   strikethrough_amended.2⟩

/-- C5: parsing never raises an error — for every option record and every
input `parse` returns `.ok` (the grammar is total: when every other
alternative fails, the paragraph or newline alternative succeeds);
in particular `"*unterminated"` parses to a document holding a single
paragraph with a single text leaf whose value equals the whole input; and
in general an unmatched opening delimiter (a delimiter character occurring
at most once in the text) makes the span search `findSpan` fail, so the
markup pass returns the text node unchanged. -/
theorem unmatched_delimiters_confirmed :
    (∀ (opts : ParseOptions) (s : String), ∃ d, parse opts s = .ok d) ∧
    parse defaultOptions "*unterminated" =
      .ok (.mk "document" "" 0 "" none false "" false
        [.mk "paragraph" "" 0 "" none false "" true
          [.mk "text" "*unterminated" 0 "" none false "" false []]]) ∧
    (∀ (c : Char) (v : List Char), v.count c ≤ 1 → findSpan c v = none) ∧
    (∀ (v : List Char), v.count '*' ≤ 1 →
      processBold [tx (String.mk v)] = [tx (String.mk v)]) :=
  ⟨fun opts s => parse_ok opts s, rfl,
   fun _ v h => findSpan_none v h, processBold_unmatched⟩

theorem unmatched_delimiters_confirmed_witness :
    (∃ d, parse defaultOptions "*a" = .ok d) ∧
    findSpan '*' "*unterminated".toList = none ∧
    processBold [tx (String.mk "*unterminated".toList)] =
      [tx (String.mk "*unterminated".toList)] :=
  ⟨unmatched_delimiters_confirmed.1 defaultOptions "*a",
   unmatched_delimiters_confirmed.2.2.1 '*' "*unterminated".toList (by decide),
   unmatched_delimiters_confirmed.2.2.2 "*unterminated".toList (by decide)⟩

/-- C6 counterexample: the claim says an input whose `#+BEGIN_SRC` block
has no matching `#+END_SRC` fails with a typed `UnterminatedBlock` error.
The parser that runs (`packages/core`) has no code-block rules at all:
such input parses successfully, each line becoming a plain paragraph, and
no error of any kind is raised. (The stand-alone `grammar.pegjs`, which
does define `CodeBlock`, is rejected by `pegjs.generate` when the grammar
is compiled — its `ListMarker` rule ends in an unterminated string
literal — so no parser is ever generated from it and it parses nothing.) -/
theorem unterminated_block_counterexample :
    parse defaultOptions "#+BEGIN_SRC js\nconst x = 1;\n" =
      .ok (.mk "document" "" 0 "" none false "" false
        [.mk "paragraph" "" 0 "" none false "" true
          [.mk "text" "#+BEGIN_SRC js" 0 "" none false "" false []],
         .mk "paragraph" "" 0 "" none false "" true
          [.mk "text" "const x = 1;" 0 "" none false "" false []]]) := rfl

/-- C6 amended: no typed `UnterminatedBlock` (or `GrammarError`) exists
anywhere in the code — the wrapper can produce only the single generic
failure — and an unterminated `#+BEGIN_SRC` input does not fail at all:
the running parser has no code-block rules, treats such lines as
paragraphs, and, being total, returns a complete document for every input,
so the caller never receives an error, typed or otherwise. -/
theorem unterminated_block_amended :
    (∀ s : String, ∃ d : Node, parse defaultOptions s = .ok d) ∧
    (∀ e : PError, e = .parseFailure) :=
  ⟨fun s => parse_ok defaultOptions s, fun e => by cases e; rfl⟩

/-- C7 counterexample: with default options the heading keyword set is not
`{TODO, DONE}` — `"* FEEDBACK X\n"` is parsed with
`todoKeyword = "FEEDBACK"`, a keyword outside the claimed default set —
and the claim's exact scenario input `"* TODO Write docs"` (with no line
terminator) is not even parsed as a heading, because the `heading` rule
requires a trailing newline. -/
theorem todo_keywords_counterexample :
    parse defaultOptions "* FEEDBACK X\n" =
      .ok (.mk "document" "" 0 "" none false "" false
        [.mk "heading" "" 1 "X" (some "FEEDBACK") false "" true []]) ∧
    parse defaultOptions "* TODO Write docs" =
      .ok (.mk "document" "" 0 "" none false "" false
        [.mk "paragraph" "" 0 "" none false "" true
          [.mk "text" "* TODO Write docs" 0 "" none false "" false []]]) :=
  ⟨rfl, rfl⟩

/-- C7 amended: the recognized TODO-state keywords are the seven literals
hard-wired in the grammar (TODO, DONE, FEEDBACK, VERIFY, DELEGATED, PROJECT,
IDEA); the `todoKeywords` option is accepted but has no effect on parsing
(every option value yields the very same parse function). A newline-
terminated `"* TODO Write docs\n"` parses to
Heading(level 1, todoKeyword "TODO", title "Write docs"), and a leading
token outside the fixed set stays in the title with no `todoKeyword`. -/
theorem todo_keywords_amended :
    (∀ (opts : ParseOptions) (s : String),
        parse opts s = parse defaultOptions s) ∧
    parse defaultOptions "* TODO Write docs\n" =
      .ok (.mk "document" "" 0 "" none false "" false
        [.mk "heading" "" 1 "Write docs" (some "TODO") false "" true []]) ∧
    parse defaultOptions "* URGENT Write docs\n" =
      .ok (.mk "document" "" 0 "" none false "" false
        [.mk "heading" "" 1 "URGENT Write docs" none false "" true []]) :=
  ⟨fun _ _ => rfl, rfl, rfl⟩

/-- C8: no parser in the repository can produce the claimed Table. The
grammar that defines the table rules (`grammar.pegjs`) is rejected by
`pegjs.generate` when it is compiled (its `ListMarker` rule ends in an
unterminated string literal), so it never parses anything; and even its
`TableRow` rule text, taken on its own terms, matches no input whatsoever —
the greedy `TableCell+` consumes each closing `|`, so the rule's mandatory
trailing `"|"` can never match. The parser that runs (`packages/core`) has
no table rules: the scenario input parses into three plain paragraphs,
with no `Table` node and no header row anywhere. -/
theorem table_scenario_code_bug :
    (∀ s : List Char, Peg.pgTableRow s = none) ∧
    parse defaultOptions "| A | B |\n|---+---|\n| 1 | 2 |" =
      .ok (.mk "document" "" 0 "" none false "" false
        [.mk "paragraph" "" 0 "" none false "" true
          [.mk "text" "| A | B |" 0 "" none false "" false []],
         .mk "paragraph" "" 0 "" none false "" true
          [.mk "text" "|---+---|" 0 "" none false "" false []],
         .mk "paragraph" "" 0 "" none false "" true
          [.mk "text" "| 1 | 2 |" 0 "" none false "" false []]]) :=
  ⟨Peg.pgTableRow_none, rfl⟩

/-- C9 counterexample: in the parse of `"hi\n"` the paragraph's text node —
spliced in by the inline segmentation pass — has no parent back-reference
(`parent` is left `undefined`; `plinked = false`), violating the claim that
every reachable node's parent reference equals the node holding it. -/
theorem parent_refs_counterexample :
    parse defaultOptions "hi\n" =
      .ok (.mk "document" "" 0 "" none false "" false
        [.mk "paragraph" "" 0 "" none false "" true
          [.mk "text" "hi" 0 "" none false "" false []]]) ∧
    Node.plinked (.mk "text" "hi" 0 "" none false "" false []) = false :=
  ⟨rfl, rfl⟩

/-- C9 amended: parent back-references are set by `appendChild` during tree
assembly, so in the tree handed to the markup pass every node below the
root is parent-linked (for every AST); but the markup pass replaces text
children via `splice`, which sets no parent references: every node it
splices in lacks the back-reference (for every input string). The final
tree therefore violates the claimed everywhere-invariant wherever inline
markup was processed. -/
theorem parent_refs_amended :
    (∀ a : Ast, nodeLinkedOK (createNode a) = true) ∧
    (∀ v : String, ∀ n ∈ processTextMarkupInString v, n.plinked = false) :=
  ⟨createNode_linked, processTextMarkupInString_unlinked⟩

theorem parent_refs_amended_witness :
    nodeLinkedOK (createNode (.paragraph [.text "hi"])) = true ∧
    (tx "hi").plinked = false :=
  ⟨parent_refs_amended.1 (.paragraph [.text "hi"]),
   parent_refs_amended.2 "hi" (tx "hi")
     (by rw [show processTextMarkupInString "hi" = [tx "hi"] from rfl]
         exact List.mem_singleton.mpr rfl)⟩

/-- The representative round-trip input for C10: a heading with a TODO
keyword, a paragraph exercising all six inline markup kinds, and a
three-item list with one nested level. -/
def rtInput : String :=
  "* TODO T\nplain *b*, /i/ _u_ ~c~ =v=, +st+ end\n- one\n- two\n  - three\n"

/-- The parse of `"- *a*\n"`: a list item carrying a Bold inline node. -/
def ceTree : Node :=
  .mk "document" "" 0 "" none false "" false
    [.mk "list" "" 0 "" none false "unordered" true
      [.mk "list_item" "" 0 "" none false "" true
        [.mk "bold" "" 0 "" none false "" false
          [.mk "text" "a" 0 "" none false "" true []]]]]

/-- The re-parse of the rendered `"- \n"`: the bold content is gone. -/
def ceTree2 : Node :=
  .mk "document" "" 0 "" none false "" false
    [.mk "list" "" 0 "" none false "unordered" true
      [.mk "list_item" "" 0 "" none false "" true
        [.mk "text" "" 0 "" none false "" true []]]]

theorem ceParseEq : parse defaultOptions "- *a*\n" = .ok ceTree := rfl

theorem ceRenderEq : render ceTree = "- \n" := rfl

theorem ceReparseEq : parse defaultOptions "- \n" = .ok ceTree2 := rfl

/-- C10 counterexample: for the supported-constructs input `"- *a*\n"`
(a list whose item carries bold markup), re-parsing the rendered document is
not the original parse: the original tree contains one Bold node, the
re-parse contains none — `renderListItem` renders only the text-typed
children of a list item, so the Bold node is dropped and the item comes back
as an empty text. A Position-erasing comparison cannot make these equal,
since the node kinds themselves differ. -/
theorem roundtrip_counterexample :
    Except.map (countType "bold") (parse defaultOptions "- *a*\n") = .ok 1 ∧
    Except.map (countType "bold")
      ((parse defaultOptions "- *a*\n").bind fun d =>
        parse defaultOptions (render d)) = .ok 0 := by
  constructor
  · rw [ceParseEq]; rfl
  · rw [ceParseEq]
    show Except.map (countType "bold")
      (parse defaultOptions (render ceTree)) = .ok 0
    rw [ceRenderEq, ceReparseEq]; rfl

/-- The parse of the round-trip representative input `rtInput`. -/
def rtTree : Node :=
  .mk "document" "" 0 "" none false "" false
    [.mk "heading" "" 1 "T" (some "TODO") false "" true
      [.mk "paragraph" "" 0 "" none false "" true
        [.mk "text" "plain " 0 "" none false "" false [],
         .mk "bold" "" 0 "" none false "" false
           [.mk "text" "b" 0 "" none false "" true []],
         .mk "text" ", " 0 "" none false "" false [],
         .mk "italic" "" 0 "" none false "" false
           [.mk "text" "i" 0 "" none false "" true []],
         .mk "text" " " 0 "" none false "" false [],
         .mk "underline" "" 0 "" none false "" false
           [.mk "text" "u" 0 "" none false "" true []],
         .mk "text" " " 0 "" none false "" false [],
         .mk "code" "c" 0 "" none false "" false [],
         .mk "text" " " 0 "" none false "" false [],
         .mk "verbatim" "v" 0 "" none false "" false [],
         .mk "text" ", " 0 "" none false "" false [],
         .mk "strikethrough" "" 0 "" none false "" false
           [.mk "text" "st" 0 "" none false "" true []],
         .mk "text" " end" 0 "" none false "" false []],
       .mk "list" "" 0 "" none false "unordered" true
        [.mk "list_item" "" 0 "" none false "" true
          [.mk "text" "one" 0 "" none false "" false []],
         .mk "list_item" "" 0 "" none false "" true
          [.mk "text" "two" 0 "" none false "" false [],
           .mk "list" "" 0 "" none false "unordered" true
            [.mk "list_item" "" 0 "" none false "" true
              [.mk "text" "three" 0 "" none false "" false []]]]]]]

/-- `render rtTree`: the paragraph gains a trailing blank line, everything
else is reproduced verbatim. -/
def rtRendered : String :=
  "* TODO T\nplain *b*, /i/ _u_ ~c~ =v=, +st+ end\n\n- one\n- two\n  - three\n"

theorem rtParseEq : parse defaultOptions rtInput = .ok rtTree := rfl

theorem rtRenderEq : render rtTree = rtRendered := rfl

theorem rtReparseEq : parse defaultOptions rtRendered = .ok rtTree := rfl

/-- C10 amended: the round-trip identity `parse (render (parse x)) = parse x`
does not hold for all supported inputs (see the counterexample: list items
whose content carries inline markup lose it); it does hold — as exact tree
equality — for documents whose list items carry plain text, exercised here
on a representative input covering headings with TODO keywords, paragraphs
with all six inline markup kinds, and nested lists. -/
theorem roundtrip_amended :
    ((parse defaultOptions rtInput).bind fun d =>
      parse defaultOptions (render d)) = parse defaultOptions rtInput := by
  rw [rtParseEq]
  show parse defaultOptions (render rtTree) = Except.ok rtTree
  rw [rtRenderEq, rtReparseEq]

end Orger
